import Mathlib

/-!
Verification of the microscopy max-projection pipeline.

This file gives a shallow embedding of the core of the repository
(`max_project_nd2_stream.py`, `max_project_nd2_fovs.py`,
`max_project_nd2_fovs_parallel.py`): the axis model that picks the
field-of-view axis, the reducer that max-projects the time and depth axes
and normalizes the result to (channel, row, column) order, the shape
guard that crops/pads a reduced plane to the declared output shape, the
uint16 cast, the disk-backed accumulation sink with its index-addressed
writes and finalization, and the worker-count planner.  N-dimensional
arrays are embedded as a shape list together with a total indexing
function from multi-indices to natural-number pixel values.
-/

namespace Microscopy

/-! ### General list lemmas used by the reducer proofs -/

/-- Commutation of two insertions, with no length side condition: inserting
at position `i` and then at position `j+1` (with `i ≤ j`) agrees with
inserting at `j` first and then at `i`. -/
theorem insertIdx_comm_any {α : Type} (a b : α) (i j : Nat) (l : List α) (h : i ≤ j) :
    (l.insertIdx i a).insertIdx (j + 1) b = (l.insertIdx j b).insertIdx i a := by
  rcases le_or_lt j l.length with hj | hj
  · exact List.insertIdx_comm a b i j l h hj
  · rw [List.insertIdx_of_length_lt l b j hj]
    rw [List.insertIdx_of_length_lt (l.insertIdx i a) b (j + 1)
      (Nat.lt_of_le_of_lt (List.length_insertIdx_le_succ l a i) (Nat.succ_lt_succ hj))]

/-- Erasing index `i` and then index `j-1` (for `i < j`) agrees with erasing
index `j` first and then index `i`. -/
theorem eraseIdx_eraseIdx_of_lt {α : Type} (l : List α) (i j : Nat) (h : i < j) :
    (l.eraseIdx i).eraseIdx (j - 1) = (l.eraseIdx j).eraseIdx i := by
  apply List.ext_getElem?
  intro n
  simp only [List.getElem?_eraseIdx]
  split_ifs <;> first | rfl | omega

/-- Reading `getD` below an erased index is unchanged. -/
theorem getD_eraseIdx_of_lt {α : Type} (l : List α) (i j : Nat) (d : α) (h : j < i) :
    (l.eraseIdx i).getD j d = l.getD j d := by
  rw [List.getD_eq_getElem?_getD, List.getD_eq_getElem?_getD,
    List.getElem?_eraseIdx_of_lt _ _ _ h]

/-- Reading `getD` at or above an erased index shifts by one. -/
theorem getD_eraseIdx_of_ge {α : Type} (l : List α) (i j : Nat) (d : α) (h : i ≤ j) :
    (l.eraseIdx i).getD j d = l.getD (j + 1) d := by
  rw [List.getD_eq_getElem?_getD, List.getD_eq_getElem?_getD,
    List.getElem?_eraseIdx_of_ge _ _ _ h]

/-- In a duplicate-free list, the index of a member below an erased position
is unchanged by the erasure. -/
theorem indexOf_eraseIdx_of_lt {α : Type} [DecidableEq α] (l : List α) (hnd : l.Nodup)
    (b : α) (hb : b ∈ l) (i : Nat) (hlt : l.indexOf b < i) :
    (l.eraseIdx i).indexOf b = l.indexOf b := by
  have hzlen : l.indexOf b < l.length := List.indexOf_lt_length.2 hb
  have hlen : l.indexOf b < (l.eraseIdx i).length := by
    rw [List.length_eraseIdx]
    split <;> omega
  have hget : (l.eraseIdx i)[l.indexOf b] = b := by
    have h2 : (l.eraseIdx i)[l.indexOf b]? = some b := by
      rw [List.getElem?_eraseIdx_of_lt _ _ _ hlt]
      exact List.getElem?_indexOf hb
    rw [List.getElem?_eq_getElem hlen] at h2
    exact Option.some.inj h2
  have h4 := List.indexOf_getElem ((List.eraseIdx_sublist l i).nodup hnd) (l.indexOf b) hlen
  rwa [hget] at h4

/-- In a duplicate-free list, the index of a member above an erased position
drops by one after the erasure. -/
theorem indexOf_eraseIdx_of_gt {α : Type} [DecidableEq α] (l : List α) (hnd : l.Nodup)
    (b : α) (hb : b ∈ l) (i : Nat) (hgt : i < l.indexOf b) :
    (l.eraseIdx i).indexOf b = l.indexOf b - 1 := by
  have hzlen : l.indexOf b < l.length := List.indexOf_lt_length.2 hb
  have hlen : l.indexOf b - 1 < (l.eraseIdx i).length := by
    rw [List.length_eraseIdx]
    split <;> omega
  have hget : (l.eraseIdx i)[l.indexOf b - 1] = b := by
    have h2 : (l.eraseIdx i)[l.indexOf b - 1]? = some b := by
      rw [List.getElem?_eraseIdx_of_ge _ _ _ (by omega)]
      have h3 : l.indexOf b - 1 + 1 = l.indexOf b := by omega
      rw [h3]
      exact List.getElem?_indexOf hb
    rw [List.getElem?_eq_getElem hlen] at h2
    exact Option.some.inj h2
  have h4 := List.indexOf_getElem ((List.eraseIdx_sublist l i).nodup hnd) (l.indexOf b - 1) hlen
  rwa [hget] at h4

/-- Membership survives erasing a position other than the member's own. -/
theorem mem_eraseIdx_of_indexOf_ne {α : Type} [DecidableEq α] (l : List α)
    (b : α) (hb : b ∈ l) (i : Nat) (hne : l.indexOf b ≠ i) : b ∈ l.eraseIdx i := by
  have hzlen : l.indexOf b < l.length := List.indexOf_lt_length.2 hb
  rcases Nat.lt_or_ge (l.indexOf b) i with hlt | hge
  · have hlen : l.indexOf b < (l.eraseIdx i).length := by
      rw [List.length_eraseIdx]
      split <;> omega
    have hget : (l.eraseIdx i)[l.indexOf b] = b := by
      have h2 : (l.eraseIdx i)[l.indexOf b]? = some b := by
        rw [List.getElem?_eraseIdx_of_lt _ _ _ hlt]
        exact List.getElem?_indexOf hb
      rw [List.getElem?_eq_getElem hlen] at h2
      exact Option.some.inj h2
    exact hget ▸ List.getElem_mem hlen
  · have hgt : i < l.indexOf b := by omega
    have hlen : l.indexOf b - 1 < (l.eraseIdx i).length := by
      rw [List.length_eraseIdx]
      split <;> omega
    have hget : (l.eraseIdx i)[l.indexOf b - 1] = b := by
      have h2 : (l.eraseIdx i)[l.indexOf b - 1]? = some b := by
        rw [List.getElem?_eraseIdx_of_ge _ _ _ (by omega)]
        have h3 : l.indexOf b - 1 + 1 = l.indexOf b := by omega
        rw [h3]
        exact List.getElem?_indexOf hb
      rw [List.getElem?_eq_getElem hlen] at h2
      exact Option.some.inj h2
    exact hget ▸ List.getElem_mem hlen

/-! ### N-dimensional arrays

An n-dimensional array is embedded as a shape (list of axis lengths) plus a
total function from multi-indices (lists of coordinates) to pixel values.
Only indices that are componentwise within the shape are meaningful; the
operations below are nevertheless total, mirroring the numpy calls used by
the source. -/

/-- Shallow embedding of an n-dimensional numpy/dask array of unsigned
integer pixels. -/
structure NDArray where
  shape : List Nat
  data : List Nat → Nat

/-- Embedding of `sub.max(axis=k)` from the source: reduce axis `k` by the
pairwise maximum of its elements, removing the axis from the shape.  The
value at a reduced index is the maximum (as a `Finset.sup` over the axis
range) of the original values obtained by re-inserting every coordinate at
position `k`. -/
def axisMax (a : NDArray) (k : Nat) : NDArray where
  shape := a.shape.eraseIdx k
  data := fun idx => (Finset.range (a.shape.getD k 0)).sup fun j => a.data (idx.insertIdx k j)

/-- Embedding of lines 63-67 of `max_project_nd2_stream.py` (and 50-54 of
`max_project_nd2_fovs.py`): if the time axis is present among the current
axes, max-reduce over it and drop its label. -/
def reduceTime (s : List Char × NDArray) : List Char × NDArray :=
  if 'T' ∈ s.1 then
    (s.1.eraseIdx (s.1.indexOf 'T'), axisMax s.2 (s.1.indexOf 'T'))
  else s

/-- Embedding of lines 68-71 of `max_project_nd2_stream.py` (and 55-58 of
`max_project_nd2_fovs.py`): if the depth axis is present among the current
axes, max-reduce over it and drop its label. -/
def reduceDepth (s : List Char × NDArray) : List Char × NDArray :=
  if 'Z' ∈ s.1 then
    (s.1.eraseIdx (s.1.indexOf 'Z'), axisMax s.2 (s.1.indexOf 'Z'))
  else s

/-- Reducing axis `t` and then the shifted axis `z - 1` agrees with reducing
axis `z` first and then axis `t`, for `t < z`: elimination order does not
affect the result. -/
theorem axisMax_comm (a : NDArray) (t z : Nat) (h : t < z) :
    axisMax (axisMax a t) (z - 1) = axisMax (axisMax a z) t := by
  have hz1 : z - 1 + 1 = z := by omega
  have htz : t ≤ z - 1 := by omega
  simp only [axisMax, NDArray.mk.injEq]
  refine ⟨eraseIdx_eraseIdx_of_lt a.shape t z h, funext fun idx => ?_⟩
  rw [getD_eraseIdx_of_ge a.shape t (z - 1) 0 htz, hz1,
    getD_eraseIdx_of_lt a.shape z t 0 h, Finset.sup_comm]
  refine Finset.sup_congr rfl fun jt _ => Finset.sup_congr rfl fun jz _ => ?_
  have hcomm := insertIdx_comm_any jt jz t (z - 1) idx htz
  rw [hz1] at hcomm
  rw [← hcomm]

/-- Pixel view of a double reduction: reducing axis `t` and then the shifted
axis `z - 1` (for `t < z`) yields, at every surviving multi-index, the
maximum of the original values over the product of both axis ranges. -/
theorem axisMax_axisMax_data (a : NDArray) (t z : Nat) (h : t < z) (idx : List Nat) :
    (axisMax (axisMax a t) (z - 1)).data idx =
      (Finset.range (a.shape.getD t 0) ×ˢ Finset.range (a.shape.getD z 0)).sup
        fun p => a.data ((idx.insertIdx (z - 1) p.2).insertIdx t p.1) := by
  have hz1 : z - 1 + 1 = z := by omega
  have htz : t ≤ z - 1 := by omega
  rw [Finset.sup_product_left]
  simp only [axisMax]
  rw [getD_eraseIdx_of_ge a.shape t (z - 1) 0 htz, hz1, Finset.sup_comm]

/-- Specification-side description of "the input element across both reduced
axes at a given surviving position": the full multi-index whose coordinate
at axis position `t` is `jt`, whose coordinate at axis position `z` is `jz`,
and whose remaining coordinates are `idx` in order. -/
def restoreIdx (t z jt jz : Nat) (idx : List Nat) : List Nat :=
  if t < z then (idx.insertIdx (z - 1) jz).insertIdx t jt
  else (idx.insertIdx (t - 1) jt).insertIdx z jz

/-- C1: for every sub-volume (axis labels plus array) containing depth
and/or time axes, the reducer eliminates the time axis then the depth axis
via pairwise maximum; reducing time-then-depth yields a result identical to
reducing depth-then-time, and when both axes are present every pixel of the
result equals the maximum of the input elements across both reduced axes at
that surviving (channel, row, column) position. -/
theorem reducer_commutes_and_is_pixel_max (axes : List Char) (a : NDArray)
    (hnd : axes.Nodup) (hTZ : 'T' ∈ axes ∨ 'Z' ∈ axes) :
    reduceDepth (reduceTime (axes, a)) = reduceTime (reduceDepth (axes, a)) ∧
    ('T' ∈ axes → 'Z' ∈ axes → ∀ idx : List Nat,
      (reduceDepth (reduceTime (axes, a))).2.data idx =
        (Finset.range (a.shape.getD (axes.indexOf 'T') 0) ×ˢ
            Finset.range (a.shape.getD (axes.indexOf 'Z') 0)).sup
          fun p => a.data (restoreIdx (axes.indexOf 'T') (axes.indexOf 'Z') p.1 p.2 idx)) := by
  by_cases hT : 'T' ∈ axes
  · by_cases hZ : 'Z' ∈ axes
    · have hne : axes.indexOf 'T' ≠ axes.indexOf 'Z' := by
        intro he
        exact absurd ((List.indexOf_inj hT hZ).1 he) (by decide)
      have hZ' : 'Z' ∈ axes.eraseIdx (axes.indexOf 'T') :=
        mem_eraseIdx_of_indexOf_ne axes 'Z' hZ _ (Ne.symm hne)
      have hT' : 'T' ∈ axes.eraseIdx (axes.indexOf 'Z') :=
        mem_eraseIdx_of_indexOf_ne axes 'T' hT _ hne
      rcases Nat.lt_or_ge (axes.indexOf 'T') (axes.indexOf 'Z') with hlt | hge
      · have idxZ : (axes.eraseIdx (axes.indexOf 'T')).indexOf 'Z' = axes.indexOf 'Z' - 1 :=
          indexOf_eraseIdx_of_gt axes hnd 'Z' hZ _ hlt
        have idxT : (axes.eraseIdx (axes.indexOf 'Z')).indexOf 'T' = axes.indexOf 'T' :=
          indexOf_eraseIdx_of_lt axes hnd 'T' hT _ hlt
        constructor
        · simp only [reduceTime, reduceDepth, if_pos hT, if_pos hZ, if_pos hZ', if_pos hT',
            idxZ, idxT]
          exact Prod.ext (eraseIdx_eraseIdx_of_lt axes _ _ hlt) (axisMax_comm a _ _ hlt)
        · intro _ _ idx
          simp only [reduceTime, reduceDepth, if_pos hT, if_pos hZ', idxZ]
          rw [axisMax_axisMax_data a _ _ hlt idx]
          exact Finset.sup_congr rfl fun p _ => by rw [restoreIdx, if_pos hlt]
      · have hgt : axes.indexOf 'Z' < axes.indexOf 'T' := by omega
        have idxZ : (axes.eraseIdx (axes.indexOf 'T')).indexOf 'Z' = axes.indexOf 'Z' :=
          indexOf_eraseIdx_of_lt axes hnd 'Z' hZ _ hgt
        have idxT : (axes.eraseIdx (axes.indexOf 'Z')).indexOf 'T' = axes.indexOf 'T' - 1 :=
          indexOf_eraseIdx_of_gt axes hnd 'T' hT _ hgt
        constructor
        · simp only [reduceTime, reduceDepth, if_pos hT, if_pos hZ, if_pos hZ', if_pos hT',
            idxZ, idxT]
          exact Prod.ext (eraseIdx_eraseIdx_of_lt axes _ _ hgt).symm (axisMax_comm a _ _ hgt).symm
        · intro _ _ idx
          simp only [reduceTime, reduceDepth, if_pos hT, if_pos hZ', idxZ]
          rw [← axisMax_comm a _ _ hgt, axisMax_axisMax_data a _ _ hgt idx,
            Finset.sup_product_left, Finset.sup_product_left, Finset.sup_comm]
          exact Finset.sup_congr rfl fun jt _ => Finset.sup_congr rfl fun jz _ => by
            rw [restoreIdx, if_neg (by omega)]
    · have hZ' : 'Z' ∉ axes.eraseIdx (axes.indexOf 'T') :=
        fun hmem => hZ (List.eraseIdx_subset _ _ hmem)
      refine ⟨?_, fun _ hZc _ => absurd hZc hZ⟩
      simp only [reduceTime, reduceDepth, if_pos hT, if_neg hZ, if_neg hZ']
  · by_cases hZ : 'Z' ∈ axes
    · have hT' : 'T' ∉ axes.eraseIdx (axes.indexOf 'Z') :=
        fun hmem => hT (List.eraseIdx_subset _ _ hmem)
      refine ⟨?_, fun hTc _ _ => absurd hTc hT⟩
      simp only [reduceTime, reduceDepth, if_pos hZ, if_neg hT, if_neg hT']
    · exact absurd hTZ (by simp [hT, hZ])

/-- Witness for C1 at a concrete sub-volume with axes (T, C, Z, Y, X). -/
theorem reducer_commutes_and_is_pixel_max_witness :
    (['T', 'C', 'Z', 'Y', 'X'] : List Char).Nodup ∧
    ('T' ∈ (['T', 'C', 'Z', 'Y', 'X'] : List Char) ∨
      'Z' ∈ (['T', 'C', 'Z', 'Y', 'X'] : List Char)) ∧
    reduceDepth (reduceTime (['T', 'C', 'Z', 'Y', 'X'],
        ⟨[2, 1, 2, 1, 1], fun idx => idx.foldl (· + ·) 0⟩)) =
      reduceTime (reduceDepth (['T', 'C', 'Z', 'Y', 'X'],
        ⟨[2, 1, 2, 1, 1], fun idx => idx.foldl (· + ·) 0⟩)) :=
  ⟨by decide, Or.inl (by decide),
    (reducer_commutes_and_is_pixel_max ['T', 'C', 'Z', 'Y', 'X']
      ⟨[2, 1, 2, 1, 1], fun idx => idx.foldl (· + ·) 0⟩
      (by decide) (Or.inl (by decide))).1⟩

/-! ### Normalization to (channel, row, column) order

Embedding of lines 73-92 of `max_project_nd2_stream.py` (identically lines
60-80 of `max_project_nd2_fovs.py`): after the reductions, move or insert a
channel axis at the front, synthesize a missing row or column axis of
length 1, and transpose into (channel, row, column) order.  The Python code
raises a `ValueError` when it asks for the position of an absent label via
`str.index`, so the embedding of the final step is partial. -/

/-- Embedding of the numpy length-1 axis insertions `sub[None, ...]`,
`sub[:, None, ...]` and `sub[..., None]`: insert a length-1 axis at
position `k`. -/
def expandDims (a : NDArray) (k : Nat) : NDArray where
  shape := a.shape.insertIdx k 1
  data := fun idx => a.data (idx.eraseIdx k)

/-- Embedding of `sub.moveaxis(c, 0)`: move axis `c` to the front. -/
def moveAxisFront (a : NDArray) (c : Nat) : NDArray where
  shape := a.shape.getD c 0 :: a.shape.eraseIdx c
  data := fun idx =>
    match idx with
    | [] => a.data []
    | j :: rest => a.data (rest.insertIdx c j)

/-- Embedding of lines 74-81: if the channel label is present but not
first, move it (and its axis) to the front; `cur_axes.pop(c_idx)` returns
the channel label itself under this guard.  If it is absent, insert a
length-1 channel axis at the front. -/
def ensureC (s : List Char × NDArray) : List Char × NDArray :=
  if 'C' ∈ s.1 then
    if s.1.indexOf 'C' ≠ 0 then
      ('C' :: s.1.eraseIdx (s.1.indexOf 'C'), moveAxisFront s.2 (s.1.indexOf 'C'))
    else s
  else ('C' :: s.1, expandDims s.2 0)

/-- Embedding of lines 83-85: when the row label is absent but the column
label is present, synthesize a length-1 row axis at position 1. -/
def ensureY (s : List Char × NDArray) : List Char × NDArray :=
  if 'Y' ∉ s.1 ∧ 'X' ∈ s.1 then (s.1.insertIdx 1 'Y', expandDims s.2 1) else s

/-- Embedding of lines 86-88: when the column label is absent but the row
label is present, synthesize a length-1 column axis at the end. -/
def ensureX (s : List Char × NDArray) : List Char × NDArray :=
  if 'X' ∉ s.1 ∧ 'Y' ∈ s.1 then (s.1 ++ ['X'], expandDims s.2 s.2.shape.length) else s

/-- Embedding of `sub.transpose(order)` for a three-element axis order, as
used at lines 90-92: numpy raises unless the array rank equals the length
of the order, so the embedding is partial. -/
def transpose3 (a : NDArray) (o0 o1 o2 : Nat) : Option NDArray :=
  if a.shape.length = 3 then
    some
      { shape := [a.shape.getD o0 0, a.shape.getD o1 0, a.shape.getD o2 0]
        data := fun idx =>
          a.data [idx.getD (List.indexOf 0 [o0, o1, o2]) 0,
            idx.getD (List.indexOf 1 [o0, o1, o2]) 0,
            idx.getD (List.indexOf 2 [o0, o1, o2]) 0] }
  else none

/-- Embedding of lines 73-92 as a whole: normalize the reduced sub-volume
to (channel, row, column) order.  `cur_axes_str.index` raises when a label
is absent, hence the `Option`. -/
def ensureCYX (s : List Char × NDArray) : Option NDArray :=
  if 'C' ∈ (ensureX (ensureY (ensureC s))).1 ∧ 'Y' ∈ (ensureX (ensureY (ensureC s))).1 ∧
      'X' ∈ (ensureX (ensureY (ensureC s))).1 then
    transpose3 (ensureX (ensureY (ensureC s))).2
      ((ensureX (ensureY (ensureC s))).1.indexOf 'C')
      ((ensureX (ensureY (ensureC s))).1.indexOf 'Y')
      ((ensureX (ensureY (ensureC s))).1.indexOf 'X')
  else none

/-- C4 (counterexample): for a sub-volume whose axes are only the channel
axis — both the row and the column axis absent — the normalization step
produces no plane at all (the Python code raises a `ValueError` at
`cur_axes_str.index('Y')`), so the output does not have rank 3 in that
case, contrary to the claim. -/
theorem cyx_rank3_fails_without_row_and_column :
    ensureCYX (['C'], ⟨[5], fun _ => 0⟩) = none := rfl

/-- C4 (amended): for every duplicate-free list of surviving axes drawn
from {channel, row, column} that contains at least one of the row or column
axes, the normalization succeeds and yields a rank-3 array in (channel,
row, column) order in which every absent axis has been synthesized with
length 1; when both row and column are absent it fails instead. -/
theorem cyx_rank3_of_row_or_column (axes : List Char) (sh : List Nat)
    (d : List Nat → Nat) (hnd : axes.Nodup)
    (hsub : ∀ x ∈ axes, x ∈ (['C', 'Y', 'X'] : List Char))
    (hyx : 'Y' ∈ axes ∨ 'X' ∈ axes) (hlen : sh.length = axes.length) :
    ∃ b, ensureCYX (axes, ⟨sh, d⟩) = some b ∧
      b.shape = [(if 'C' ∈ axes then sh.getD (axes.indexOf 'C') 0 else 1),
        (if 'Y' ∈ axes then sh.getD (axes.indexOf 'Y') 0 else 1),
        (if 'X' ∈ axes then sh.getD (axes.indexOf 'X') 0 else 1)] := by
  have hl3 : axes.length ≤ 3 := (hnd.subperm hsub).length_le
  rcases axes with _ | ⟨e1, _ | ⟨e2, _ | ⟨e3, _ | ⟨e4, rest⟩⟩⟩⟩
  · simp at hyx
  · rcases sh with _ | ⟨s0, _ | ⟨s1, tl⟩⟩ <;> try simp at hlen
    have hm1 : e1 ∈ (['C', 'Y', 'X'] : List Char) := hsub e1 (by simp)
    fin_cases hm1
    · simp at hyx
    · exact ⟨_, rfl, rfl⟩
    · exact ⟨_, rfl, rfl⟩
  · rcases sh with _ | ⟨s0, _ | ⟨s1, _ | ⟨s2, tl⟩⟩⟩ <;> try simp at hlen
    have hm1 : e1 ∈ (['C', 'Y', 'X'] : List Char) := hsub e1 (by simp)
    have hm2 : e2 ∈ (['C', 'Y', 'X'] : List Char) := hsub e2 (by simp)
    fin_cases hm1 <;> fin_cases hm2 <;>
      first
        | exact ⟨_, rfl, rfl⟩
        | simp at hnd
  · rcases sh with _ | ⟨s0, _ | ⟨s1, _ | ⟨s2, _ | ⟨s3, tl⟩⟩⟩⟩ <;> try simp at hlen
    have hm1 : e1 ∈ (['C', 'Y', 'X'] : List Char) := hsub e1 (by simp)
    have hm2 : e2 ∈ (['C', 'Y', 'X'] : List Char) := hsub e2 (by simp)
    have hm3 : e3 ∈ (['C', 'Y', 'X'] : List Char) := hsub e3 (by simp)
    fin_cases hm1 <;> fin_cases hm2 <;> fin_cases hm3 <;>
      first
        | exact ⟨_, rfl, rfl⟩
        | simp at hnd
  · simp at hl3

/-- Witness for the amended C4 at the concrete axes (row, channel) with a
missing column axis. -/
theorem cyx_rank3_of_row_or_column_witness :
    (['Y', 'C'] : List Char).Nodup ∧
    ∃ b, ensureCYX (['Y', 'C'], ⟨[6, 2], fun _ => 0⟩) = some b ∧
      b.shape = [(if 'C' ∈ (['Y', 'C'] : List Char) then
          [6, 2].getD ((['Y', 'C'] : List Char).indexOf 'C') 0 else 1),
        (if 'Y' ∈ (['Y', 'C'] : List Char) then
          [6, 2].getD ((['Y', 'C'] : List Char).indexOf 'Y') 0 else 1),
        (if 'X' ∈ (['Y', 'C'] : List Char) then
          [6, 2].getD ((['Y', 'C'] : List Char).indexOf 'X') 0 else 1)] :=
  ⟨by decide, cyx_rank3_of_row_or_column ['Y', 'C'] [6, 2] (fun _ => 0)
    (by decide) (by decide) (Or.inl (by decide)) rfl⟩

/-! ### Shape guard: crop and edge-pad to the declared output shape

Embedding of lines 99-105 of `max_project_nd2_stream.py`: when the reduced
plane's shape differs from the declared `(C, Y, X)`, rows and columns are
first cropped from the origin (`arr[..., :Y, :X]`), and if the cropped rows
or columns are still short, both are edge-padded at the high end
(`np.pad(..., mode='edge')`).  The channel dimension is never adjusted. -/

/-- A rank-3 (channel, row, column) array, as the reducer produces just
before the shape guard. -/
structure Plane3 where
  nc : Nat
  ny : Nat
  nx : Nat
  val : Nat → Nat → Nat → Nat

/-- Embedding of the shape guard at lines 99-105.  The crop keeps the
original values at unchanged coordinates; the edge pad replicates the last
row/column of the cropped array. -/
def cropPad (C Y X : Nat) (arr : Plane3) : Plane3 :=
  if arr.nc = C ∧ arr.ny = Y ∧ arr.nx = X then arr
  else if min arr.ny Y < Y ∨ min arr.nx X < X then
    { nc := arr.nc, ny := Y, nx := X,
      val := fun c y x => arr.val c (min y (min arr.ny Y - 1)) (min x (min arr.nx X - 1)) }
  else { nc := arr.nc, ny := min arr.ny Y, nx := min arr.nx X, val := arr.val }

/-- C2 (counterexample): a reduced plane whose channel count differs from
the declared one is returned with its own channel count — the guard crops
and pads only rows and columns, so the output shape is not the declared
shape. -/
theorem cropPad_wrong_channel_count :
    (cropPad 1 4 4 ⟨2, 4, 4, fun _ _ _ => 0⟩).nc = 2 ∧
    (cropPad 1 4 4 ⟨2, 4, 4, fun _ _ _ => 0⟩).nc ≠ 1 := by
  constructor <;> decide

/-- C2 (amended): for every reduced plane whose channel count matches the
declared one (and whose row and column axes are nonempty, as numpy's edge
pad requires), the guard returns a plane of exactly the declared
(channel, row, column) shape; rows/columns beyond the declared size are
cropped from the origin, and short rows/columns are filled by replicating
the nearest edge value. -/
theorem cropPad_shape_and_values (C Y X : Nat) (arr : Plane3) (hc : arr.nc = C)
    (hy : 0 < arr.ny) (hx : 0 < arr.nx) :
    (cropPad C Y X arr).nc = C ∧ (cropPad C Y X arr).ny = Y ∧
    (cropPad C Y X arr).nx = X ∧
    ∀ c y x, y < Y → x < X →
      (cropPad C Y X arr).val c y x =
        arr.val c (min y (arr.ny - 1)) (min x (arr.nx - 1)) := by
  unfold cropPad
  split_ifs with h1 h2
  · obtain ⟨hc1, hy1, hx1⟩ := h1
    refine ⟨hc1, hy1, hx1, fun c y x hyY hxX => ?_⟩
    have e1 : min y (arr.ny - 1) = y := by omega
    have e2 : min x (arr.nx - 1) = x := by omega
    rw [e1, e2]
  · refine ⟨hc, rfl, rfl, fun c y x hyY hxX => ?_⟩
    have e1 : min y (min arr.ny Y - 1) = min y (arr.ny - 1) := by omega
    have e2 : min x (min arr.nx X - 1) = min x (arr.nx - 1) := by omega
    show arr.val c (min y (min arr.ny Y - 1)) (min x (min arr.nx X - 1)) =
      arr.val c (min y (arr.ny - 1)) (min x (arr.nx - 1))
    rw [e1, e2]
  · push_neg at h2
    refine ⟨hc, ?_, ?_, fun c y x hyY hxX => ?_⟩
    · show min arr.ny Y = Y
      omega
    · show min arr.nx X = X
      omega
    · have e1 : min y (arr.ny - 1) = y := by omega
      have e2 : min x (arr.nx - 1) = x := by omega
      show arr.val c y x = arr.val c (min y (arr.ny - 1)) (min x (arr.nx - 1))
      rw [e1, e2]

/-- Witness for the amended C2 at a concrete plane that is one row short
and one column long relative to the declared 2-channel 4-by-4 shape. -/
theorem cropPad_shape_and_values_witness :
    (Plane3.mk 2 3 5 fun c y x => c * 100 + y * 10 + x).nc = 2 ∧
    0 < (Plane3.mk 2 3 5 fun c y x => c * 100 + y * 10 + x).ny ∧
    0 < (Plane3.mk 2 3 5 fun c y x => c * 100 + y * 10 + x).nx ∧
    (cropPad 2 4 4 (Plane3.mk 2 3 5 fun c y x => c * 100 + y * 10 + x)).nc = 2 ∧
    (cropPad 2 4 4 (Plane3.mk 2 3 5 fun c y x => c * 100 + y * 10 + x)).ny = 4 ∧
    (cropPad 2 4 4 (Plane3.mk 2 3 5 fun c y x => c * 100 + y * 10 + x)).nx = 4 :=
  ⟨rfl, by decide, by decide,
    (cropPad_shape_and_values 2 4 4 _ rfl (by decide) (by decide)).1,
    (cropPad_shape_and_values 2 4 4 _ rfl (by decide) (by decide)).2.1,
    (cropPad_shape_and_values 2 4 4 _ rfl (by decide) (by decide)).2.2.1⟩

/-! ### Axis model: field-of-view axis selection

Embedding of lines 16-26 of `max_project_nd2_stream.py` (identically lines
19-31 of `max_project_nd2_fovs.py`).  The source's `sizes` is a Python
dict built from the reader's ordered axis map; it is embedded as an
association list with unique keys, looked up by key with a default, as
`dict.get(axis, default)` does. -/

/-- Embedding of `sizes.get(a, d)`: the value of the first entry with key
`a`, or the default `d` when no entry has that key. -/
def dictGetD (s : List (Char × Nat)) (a : Char) (d : Nat) : Nat :=
  match s.find? (fun p => p.1 == a) with
  | some p => p.2
  | none => d

/-- Embedding of lines 17-24: choose the field-of-view axis with fixed
priority — the multi-position axis P when its length exceeds 1, else the
multi-tile axis M when its length exceeds 1, else the time axis T when its
length exceeds 1, else none. -/
def pickFovAxis (s : List (Char × Nat)) : Option Char :=
  if dictGetD s 'P' 0 > 1 then some 'P'
  else if dictGetD s 'M' 0 > 1 then some 'M'
  else if dictGetD s 'T' 0 > 1 then some 'T'
  else none

/-- Embedding of line 26: the total number of fields of view — the length
of the selected axis, or one implicit field when no axis was selected. -/
def totalFovs (s : List (Char × Nat)) : Nat :=
  match pickFovAxis s with
  | some a => dictGetD s a 1
  | none => 1

/-- Two entries of an association list with duplicate-free keys that share
a key are the same entry. -/
theorem assoc_eq_of_fst_eq {s : List (Char × Nat)} (hnd : (s.map Prod.fst).Nodup)
    {x y : Char × Nat} (hx : x ∈ s) (hy : y ∈ s) (hxy : x.1 = y.1) : x = y := by
  induction s with
  | nil => cases hx
  | cons hd tl ih =>
    simp only [List.map_cons, List.nodup_cons] at hnd
    rcases List.mem_cons.1 hx with rfl | hx'
    · rcases List.mem_cons.1 hy with rfl | hy'
      · rfl
      · exact absurd (hxy ▸ List.mem_map_of_mem Prod.fst hy') hnd.1
    · rcases List.mem_cons.1 hy with rfl | hy'
      · exact absurd (hxy ▸ List.mem_map_of_mem Prod.fst hx') hnd.1
      · exact ih hnd.2 hx' hy'

/-- Key lookup in an association list with duplicate-free keys is
invariant under permutation of the entries. -/
theorem find?_key_perm {s s' : List (Char × Nat)} (hperm : s.Perm s')
    (hnd : (s.map Prod.fst).Nodup) (a : Char) :
    s.find? (fun p => p.1 == a) = s'.find? (fun p => p.1 == a) := by
  cases hfs : s.find? fun p => p.1 == a with
  | none =>
    cases hfs' : s'.find? fun p => p.1 == a with
    | none => rfl
    | some y =>
      have hy := List.find?_some hfs'
      have hymem : y ∈ s := hperm.mem_iff.2 (List.mem_of_find?_eq_some hfs')
      have := List.find?_eq_none.1 hfs y hymem
      exact absurd hy this
  | some x =>
    have hx := List.find?_some hfs
    have hxmem : x ∈ s := List.mem_of_find?_eq_some hfs
    cases hfs' : s'.find? fun p => p.1 == a with
    | none =>
      have := List.find?_eq_none.1 hfs' x (hperm.mem_iff.1 hxmem)
      exact absurd hx this
    | some y =>
      have hy := List.find?_some hfs'
      have hymem : y ∈ s := hperm.mem_iff.2 (List.mem_of_find?_eq_some hfs')
      have hkey : x.1 = y.1 := by
        have hx1 : x.1 = a := by simpa using hx
        have hy1 : y.1 = a := by simpa using hy
        rw [hx1, hy1]
      rw [assoc_eq_of_fst_eq hnd hxmem hymem hkey]

/-- C3: the field-of-view axis is selected by fixed priority P, then M,
then T, each requiring length greater than 1; when no candidate axis has
length greater than 1, no axis is selected and the source is one implicit
field of view; and both the selection and the field count depend only on
the per-axis sizes, not on the ordering of the axes in the source map. -/
theorem fov_axis_priority_and_order_independent (s : List (Char × Nat))
    (hnd : (s.map Prod.fst).Nodup) :
    (dictGetD s 'P' 0 > 1 → pickFovAxis s = some 'P') ∧
    (dictGetD s 'P' 0 ≤ 1 → dictGetD s 'M' 0 > 1 → pickFovAxis s = some 'M') ∧
    (dictGetD s 'P' 0 ≤ 1 → dictGetD s 'M' 0 ≤ 1 → dictGetD s 'T' 0 > 1 →
      pickFovAxis s = some 'T') ∧
    (dictGetD s 'P' 0 ≤ 1 → dictGetD s 'M' 0 ≤ 1 → dictGetD s 'T' 0 ≤ 1 →
      pickFovAxis s = none ∧ totalFovs s = 1) ∧
    (∀ s' : List (Char × Nat), s.Perm s' →
      pickFovAxis s' = pickFovAxis s ∧ totalFovs s' = totalFovs s) := by
  have hget : ∀ (s' : List (Char × Nat)), s.Perm s' → ∀ a d, dictGetD s' a d = dictGetD s a d :=
    fun s' hp a d => by rw [dictGetD, dictGetD, ← find?_key_perm hp hnd a]
  refine ⟨?_, ?_, ?_, ?_, ?_⟩
  · intro hP
    rw [pickFovAxis, if_pos hP]
  · intro hP hM
    rw [pickFovAxis, if_neg (by omega), if_pos hM]
  · intro hP hM hT
    rw [pickFovAxis, if_neg (by omega), if_neg (by omega), if_pos hT]
  · intro hP hM hT
    have hpick : pickFovAxis s = none := by
      rw [pickFovAxis, if_neg (by omega), if_neg (by omega), if_neg (by omega)]
    exact ⟨hpick, by rw [totalFovs, hpick]⟩
  · intro s' hp
    have hpick : pickFovAxis s' = pickFovAxis s := by
      rw [pickFovAxis, pickFovAxis, hget s' hp 'P' 0, hget s' hp 'M' 0, hget s' hp 'T' 0]
    refine ⟨hpick, ?_⟩
    rw [totalFovs, totalFovs, hpick]
    cases pickFovAxis s with
    | none => rfl
    | some a =>
      show dictGetD s' a 1 = dictGetD s a 1
      exact hget s' hp a 1

/-- Witness for C3 at a concrete axis map with both a position axis and a
time axis, presented in two different orders. -/
theorem fov_axis_priority_witness :
    ((([('T', 5), ('P', 3), ('C', 2)] : List (Char × Nat)).map Prod.fst).Nodup) ∧
    pickFovAxis [('P', 3), ('C', 2), ('T', 5)] =
      pickFovAxis [('T', 5), ('P', 3), ('C', 2)] ∧
    pickFovAxis [('T', 5), ('P', 3), ('C', 2)] = some 'P' :=
  ⟨by decide,
    ((fov_axis_priority_and_order_independent [('T', 5), ('P', 3), ('C', 2)]
      (by decide)).2.2.2.2 [('P', 3), ('C', 2), ('T', 5)] (by decide)).1,
    (fov_axis_priority_and_order_independent [('T', 5), ('P', 3), ('C', 2)]
      (by decide)).1 (by decide)⟩

/-! ### Output element type cast

Embedding of lines 96-97 of `max_project_nd2_stream.py` (identically
lines 83-84 of `max_project_nd2_fovs.py`): `arr.astype(np.uint16)`.
numpy integer-to-integer casts are C-style modular conversions, so for a
nonnegative integer input the stored value is the input reduced modulo
2^16. -/

/-- Embedding of `arr.astype(np.uint16)` on a nonnegative integer pixel. -/
def castU16 (v : Nat) : Nat := v % 65536

/-- C6 (counterexample): a pixel value of 70000, above the 16-bit maximum,
is cast to 4464 = 70000 mod 2^16 — it wraps; it is not clamped to
65535. -/
theorem castU16_wraps_not_clamps :
    castU16 70000 = 4464 ∧ castU16 70000 ≠ 65535 := by
  constructor <;> decide

/-- C6 (amended): for every nonnegative pixel value arriving as a wider
integer type, the final cast to the 16-bit output element type is modular:
the stored value is below 2^16 and congruent to the input modulo 2^16 —
values above 65535 wrap around rather than clamping to 65535. -/
theorem castU16_is_modular (v : Nat) :
    castU16 v < 65536 ∧ castU16 v ≡ v [MOD 65536] := by
  refine ⟨Nat.mod_lt v (by omega), ?_⟩
  unfold Nat.ModEq castU16
  exact Nat.mod_mod_of_dvd v dvd_rfl

/-! ### Worker planner

Embedding of lines 45-54 of `max_project_nd2_fovs_parallel.py`.  The
per-thread memory estimate is height × width × channels × z-planes ×
2 bytes × a 1.5 safety multiplier; 2 × 1.5 = 3 exactly, so the product is
embedded in exact integer arithmetic. -/

/-- Embedding of line 48: estimated bytes per worker thread. -/
def memoryPerThread (height width channels zs : Nat) : Nat :=
  height * width * channels * zs * 3

/-- Embedding of line 52: floor quotient of available memory by the
per-thread cost, capped by the CPU count. -/
def optimalWorkers (availableMemory memPerThread cpuCount : Nat) : Nat :=
  min (availableMemory / memPerThread) cpuCount

/-- Embedding of line 54: at least one worker. -/
def maxWorkers (availableMemory memPerThread cpuCount : Nat) : Nat :=
  max 1 (optimalWorkers availableMemory memPerThread cpuCount)

/-- C7: the planned worker count is the floor quotient of available memory
by the per-field cost (including the safety multiplier), clamped to at
least 1 and at most the CPU count; in particular a zero quotient yields
exactly one worker, never zero. -/
theorem maxWorkers_clamped (availableMemory memPerThread cpuCount : Nat)
    (_hm : 0 < memPerThread) (hcpu : 1 ≤ cpuCount) :
    maxWorkers availableMemory memPerThread cpuCount =
      min (max (availableMemory / memPerThread) 1) cpuCount ∧
    (availableMemory / memPerThread = 0 →
      maxWorkers availableMemory memPerThread cpuCount = 1) ∧
    1 ≤ maxWorkers availableMemory memPerThread cpuCount ∧
    maxWorkers availableMemory memPerThread cpuCount ≤ cpuCount := by
  unfold maxWorkers optimalWorkers
  generalize availableMemory / memPerThread = q
  refine ⟨by omega, fun h => by omega, by omega, by omega⟩

/-- Witness for C7: with 100 memory units, a per-field cost of 7 and 4
CPU cores, the plan is 4 workers; with a per-field cost of 200 the
quotient is zero and the plan is 1 worker. -/
theorem maxWorkers_clamped_witness :
    0 < 7 ∧ 1 ≤ 4 ∧ maxWorkers 100 7 4 = min (max (100 / 7) 1) 4 ∧ maxWorkers 100 200 4 = 1 :=
  ⟨by decide, by decide, (maxWorkers_clamped 100 7 4 (by decide) (by decide)).1,
    (maxWorkers_clamped 100 200 4 (by decide) (by decide)).2.1 (by decide)⟩

/-! ### Field-of-view limit argument

Embedding of lines 27-28 of `max_project_nd2_stream.py` (identically
lines 30-31 of `max_project_nd2_fovs.py` and 35-36 of
`max_project_nd2_fovs_parallel.py`): `if num_fovs: total_fovs =
min(total_fovs, int(num_fovs))`.  The guard is Python truthiness, which is
false both for `None` and for 0. -/

/-- Embedding of the optional `num_fovs` limit applied to the total field
count. -/
def limitFovs (total : Nat) (numFovs : Option Nat) : Nat :=
  match numFovs with
  | none => total
  | some n => if n ≠ 0 then min total n else total

/-- C10: a limit of 0 is treated exactly like no limit at all — every
field of view is processed — and a positive limit n yields exactly
min(n, total) fields. -/
theorem limitFovs_zero_means_unlimited (total : Nat) :
    limitFovs total (some 0) = limitFovs total none ∧
    limitFovs total none = total ∧
    (∀ n : Nat, 0 < n → limitFovs total (some n) = min n total) := by
  refine ⟨rfl, rfl, fun n hn => ?_⟩
  rw [limitFovs, if_pos (by omega)]
  exact Nat.min_comm total n

/-- Witness for C10 at a source with 10 fields and a limit of 3. -/
theorem limitFovs_zero_means_unlimited_witness :
    limitFovs 10 (some 0) = 10 ∧ 0 < 3 ∧ limitFovs 10 (some 3) = min 3 10 :=
  ⟨(limitFovs_zero_means_unlimited 10).1.trans (limitFovs_zero_means_unlimited 10).2.1,
    by decide, (limitFovs_zero_means_unlimited 10).2.2 3 (by decide)⟩

/-! ### Accumulation sink

Embedding of the disk-backed buffer of `max_project_nd2_stream.py`: the
memmap created at line 48 with shape (total_fovs, C, Y, X) and 2-byte
elements is a flat file of pixels, and the index-addressed write
`mmap[i] = arr` at line 107 (and `all_fovs_array[m] = ...` at line 12 of
`max_project_nd2_fovs_parallel.py`) stores the C·Y·X pixels of one plane
at the flat offsets of slot `i`. -/

/-- Embedding of `mmap[i] = arr`: overwrite the flat offsets
[i·S, (i+1)·S) of the buffer with the plane's pixels, where S is the
number of pixels of one plane. -/
def writeFov (S : Nat) (buf : Nat → Nat) (i : Nat) (plane : Nat → Nat) : Nat → Nat :=
  fun off => if i * S ≤ off ∧ off < (i + 1) * S then plane (off - i * S) else buf off

/-- Reading pixel (c, y, x) of slot `j` from the flat buffer, using the
row-major layout of a (C, Y, X) plane. -/
def readPix (C Y X : Nat) (buf : Nat → Nat) (j c y x : Nat) : Nat :=
  buf (j * (C * Y * X) + ((c * Y + y) * X + x))

/-- Offsets inside slot `j` never fall inside a different slot `i`: the
index slots of the accumulation buffer do not overlap. -/
theorem slot_disjoint (S r i j : Nat) (hr : r < S) (hne : j ≠ i) :
    ¬(i * S ≤ j * S + r ∧ j * S + r < (i + 1) * S) := by
  rintro ⟨h1, h2⟩
  have e1 : (j + 1) * S = j * S + S := by ring
  have e2 : (i + 1) * S = i * S + S := by ring
  rcases Nat.lt_or_ge j i with h | h
  · have h3 : (j + 1) * S ≤ i * S := Nat.mul_le_mul_right S h
    omega
  · have h4 : i < j := by omega
    have h3 : (i + 1) * S ≤ j * S := Nat.mul_le_mul_right S h4
    omega

/-- Row-major pixel offsets lie inside one slot. -/
theorem pix_offset_lt (C Y X c y x : Nat) (hc : c < C) (hy : y < Y) (hx : x < X) :
    (c * Y + y) * X + x < C * Y * X := by
  have h1 : c * Y + y + 1 ≤ C * Y := by
    calc c * Y + y + 1 ≤ c * Y + Y := by omega
    _ = (c + 1) * Y := by ring
    _ ≤ C * Y := Nat.mul_le_mul_right Y hc
  calc (c * Y + y) * X + x < (c * Y + y) * X + X := by omega
  _ = (c * Y + y + 1) * X := by ring
  _ ≤ C * Y * X := Nat.mul_le_mul_right X h1

/-- C8: writing a plane at index `i` leaves every pixel of every other
slot `j` unchanged; writing twice at the same index is last-write-wins —
afterwards slot `i` holds the second plane and every other slot still
holds its old contents. -/
theorem sink_write_disjoint_and_last_wins (C Y X : Nat) (buf : Nat → Nat)
    (i j c y x : Nat) (p1 p2 : Nat → Nat) (hne : j ≠ i)
    (hc : c < C) (hy : y < Y) (hx : x < X) :
    readPix C Y X (writeFov (C * Y * X) buf i p1) j c y x = readPix C Y X buf j c y x ∧
    readPix C Y X (writeFov (C * Y * X) (writeFov (C * Y * X) buf i p1) i p2) j c y x =
      readPix C Y X buf j c y x ∧
    readPix C Y X (writeFov (C * Y * X) (writeFov (C * Y * X) buf i p1) i p2) i c y x =
      p2 ((c * Y + y) * X + x) := by
  have hoff : (c * Y + y) * X + x < C * Y * X := pix_offset_lt C Y X c y x hc hy hx
  have hdisj := slot_disjoint (C * Y * X) ((c * Y + y) * X + x) i j hoff hne
  refine ⟨?_, ?_, ?_⟩
  · rw [readPix, readPix, writeFov, if_neg hdisj]
  · rw [readPix, readPix, writeFov, if_neg hdisj]
    show writeFov (C * Y * X) buf i p1 (j * (C * Y * X) + ((c * Y + y) * X + x)) = _
    rw [writeFov, if_neg hdisj]
  · have e2 : (i + 1) * (C * Y * X) = i * (C * Y * X) + C * Y * X := by ring
    rw [readPix, writeFov, if_pos ⟨by omega, by omega⟩]
    congr 1
    omega

/-- Witness for C8 at concrete buffer, planes and indices. -/
theorem sink_write_disjoint_and_last_wins_witness :
    (0 : Nat) ≠ 1 ∧ (1 : Nat) < 2 ∧ (2 : Nat) < 3 ∧ (3 : Nat) < 4 ∧
    readPix 2 3 4 (writeFov (2 * 3 * 4) (fun off => off) 1 (fun _ => 9)) 0 1 2 3 =
      readPix 2 3 4 (fun off => off) 0 1 2 3 ∧
    readPix 2 3 4
        (writeFov (2 * 3 * 4) (writeFov (2 * 3 * 4) (fun off => off) 1 (fun _ => 9)) 1
          (fun _ => 7)) 1 1 2 3 =
      (fun _ : Nat => 7) ((1 * 3 + 2) * 4 + 3) :=
  ⟨by decide, by decide, by decide, by decide,
    (sink_write_disjoint_and_last_wins 2 3 4 (fun off => off) 1 0 1 2 3
      (fun _ => 9) (fun _ => 7) (by decide) (by decide) (by decide) (by decide)).1,
    (sink_write_disjoint_and_last_wins 2 3 4 (fun off => off) 1 0 1 2 3
      (fun _ => 9) (fun _ => 7) (by decide) (by decide) (by decide) (by decide)).2.2⟩

/-! ### Sink lifecycle and finalization

State of the streaming run's sink: the flat buffer (the memmap is created
zero-filled with mode `w+` at line 48) together with ghost bookkeeping of
which field-of-view indices have been written — the code itself keeps no
such record.  Finalization (lines 113-118) flushes the memmap and hands
the entire buffer to the TIFF writer; it performs no completeness
check. -/

/-- Sink state: buffer contents plus the ghost set of written indices. -/
structure SinkState where
  buffer : Nat → Nat
  written : Finset Nat

/-- Embedding of line 48: a fresh zero-filled buffer, nothing written. -/
def initSink : SinkState := ⟨fun _ => 0, ∅⟩

/-- Embedding of line 107 at the sink level: write a plane at index `i`
and record the index as written. -/
def sinkWrite (S : Nat) (st : SinkState) (i : Nat) (plane : Nat → Nat) : SinkState :=
  ⟨writeFov S st.buffer i plane, insert i st.written⟩

/-- Embedding of lines 113-118: finalization always hands the whole buffer
to the writer; no index-completeness check exists in the code. -/
def sinkFinalize (st : SinkState) : Option (Nat → Nat) := some st.buffer

/-- Embedding of the sequential driver loop at lines 51-107: for each
field-of-view index `0, 1, ..., n-1` in order, reduce and write the plane
into the sink. -/
def runLoop (S : Nat) (planes : Nat → Nat → Nat) : Nat → SinkState
  | 0 => initSink
  | n + 1 => sinkWrite S (runLoop S planes n) n (planes n)

/-- C5 (counterexample): on a run declared to have one field of view whose
index 0 was never written, finalization does not fail — it still returns a
buffer.  The contract "finalize fails if any index was never written" is
absent from the code. -/
theorem sinkFinalize_no_completeness_check :
    0 ∉ initSink.written ∧ sinkFinalize initSink ≠ none := by
  refine ⟨by decide, ?_⟩
  rw [sinkFinalize]
  exact Option.some_ne_none _

/-- C5 (amended): finalization never fails — it returns the buffer
unconditionally, with never-written slots still holding their initial
zeros; completeness instead comes from the sequential driver, which writes
every index in [0, N) exactly once before finalizing, so that after the
loop all N indices have been written and finalization returns the
populated buffer. -/
theorem runLoop_writes_all_then_finalize (S : Nat) (planes : Nat → Nat → Nat) (N : Nat) :
    (∀ i, i < N → i ∈ (runLoop S planes N).written) ∧
    sinkFinalize (runLoop S planes N) = some (runLoop S planes N).buffer := by
  refine ⟨?_, rfl⟩
  induction N with
  | zero => omega
  | succ n ih =>
    intro i hi
    show i ∈ insert n (runLoop S planes n).written
    rcases Nat.lt_or_ge i n with h | h
    · exact Finset.mem_insert_of_mem (ih i h)
    · have hin : i = n := by omega
      subst hin
      exact Finset.mem_insert_self i _
/-- Witness for the amended C5: after a three-field run, index 2 is
recorded as written. -/
theorem runLoop_writes_all_then_finalize_witness :
    (2 : Nat) < 3 ∧ 2 ∈ (runLoop 4 (fun _ _ => 5) 3).written :=
  ⟨by decide, (runLoop_writes_all_then_finalize 4 (fun _ _ => 5) 3).1 2 (by decide)⟩

/-! ### Finalizer temporary-file lifecycle

Embedding of lines 113-123 of `max_project_nd2_stream.py`: after the
memmap flush, the TIFF writer runs; only after it returns does the code
attempt `os.remove` on the memmap path, and an `OSError` from the removal
is caught and ignored.  A writer failure propagates as an exception, so
the removal step is never reached and the temporary file survives. -/

/-- World state around finalization: whether the temporary memmap file
exists and whether the output file has been written. -/
structure FinalizeState where
  tmpExists : Bool
  outputWritten : Bool

/-- Embedding of lines 113-123.  The two flags model the outcome of the
two fallible collaborator calls: `writerOk` is whether `imwrite` returns
and `removeOk` is whether `os.remove` succeeds.  The returned boolean is
whether the run as a whole succeeds. -/
def finalizeRun (writerOk removeOk : Bool) (st : FinalizeState) : Bool × FinalizeState :=
  if writerOk then
    if removeOk then (true, { tmpExists := false, outputWritten := true })
    else (true, { tmpExists := st.tmpExists, outputWritten := true })
  else (false, { tmpExists := st.tmpExists, outputWritten := st.outputWritten })

/-- C9: starting from a state in which the temporary file exists — (i) if
the writer fails, the run fails and the temporary file is preserved
untouched; (ii) if the writer succeeds, the run succeeds whether or not
the removal succeeds (removal failure is non-fatal); (iii) the temporary
file ends up removed exactly when the writer succeeded and then the
removal succeeded. -/
theorem finalizeRun_tmpfile_lifecycle (writerOk removeOk : Bool) (st : FinalizeState)
    (hst : st.tmpExists = true) :
    (writerOk = false → finalizeRun writerOk removeOk st = (false, st)) ∧
    (writerOk = true → (finalizeRun writerOk removeOk st).1 = true) ∧
    ((finalizeRun writerOk removeOk st).2.tmpExists = false ↔
      writerOk = true ∧ removeOk = true) := by
  obtain ⟨te, ow⟩ := st
  simp only [FinalizeState.tmpExists] at hst ⊢
  subst hst
  cases writerOk <;> cases removeOk <;> simp [finalizeRun]

/-- Witness for C9: with the temporary file present, a failed removal
after a successful write still succeeds and keeps the file. -/
theorem finalizeRun_tmpfile_lifecycle_witness :
    (FinalizeState.mk true false).tmpExists = true ∧
    (finalizeRun true false (FinalizeState.mk true false)).1 = true :=
  ⟨rfl, (finalizeRun_tmpfile_lifecycle true false (FinalizeState.mk true false) rfl).2.1 rfl⟩

end Microscopy
